import Mathlib

/-!
Shallow embedding of the in-memory "vector store" of notex (backend/vector.go):
text chunking (`splitText`), lexical scoring and ranking (`SimilaritySearch`),
and deletion by source tag (`Delete`).

Modelling conventions:
* Go strings are modelled as `List Char` (Go `[]rune`); Go's byte-level
  `strings.Contains` on valid UTF-8 agrees with character-level substring
  search because UTF-8 is self-synchronizing, so substring search is modelled
  on character lists.
* Go `float64` scores are modelled as exact rationals (`ℚ`); all score
  arithmetic in the source stays well inside the range where `float64`
  is exact for these operations' comparisons on realistic inputs.
* Go `int` parameters are modelled as `Int`.
* The two loops that can fail to terminate or panic in the source
  (the windowing loop of `splitText`, the fallback loop of
  `SimilaritySearch`) are modelled with an explicit fuel argument;
  `none` means the Go code diverges or panics (slice index out of range).
-/

namespace Notex

/-- Whitespace test used by Go `strings.Fields` (`unicode.IsSpace`):
the Unicode White_Space code points. -/
def isGoSpace (c : Char) : Bool :=
  (0x0009 ≤ c.toNat && c.toNat ≤ 0x000D) || c.toNat == 0x0020 ||
  c.toNat == 0x0085 || c.toNat == 0x00A0 || c.toNat == 0x1680 ||
  (0x2000 ≤ c.toNat && c.toNat ≤ 0x200A) || c.toNat == 0x2028 ||
  c.toNat == 0x2029 || c.toNat == 0x202F || c.toNat == 0x205F ||
  c.toNat == 0x3000

/-- Accumulator pass for `fields`: `cur` holds the current in-progress word,
reversed. -/
def fieldsAux (cur : List Char) : List Char → List (List Char)
  | [] => if cur.isEmpty then [] else [cur.reverse]
  | c :: cs =>
    if isGoSpace c then
      if cur.isEmpty then fieldsAux [] cs else cur.reverse :: fieldsAux [] cs
    else
      fieldsAux (c :: cur) cs

/-- Go `strings.Fields`: split around runs of whitespace, dropping empty
words. -/
def fields (s : List Char) : List (List Char) :=
  fieldsAux [] s

/-- Go `strings.Join(ws, " ")`. -/
def joinSpace : List (List Char) → List Char
  | [] => []
  | [w] => w
  | w :: ws => w ++ ' ' :: joinSpace ws

/-- Go `len(s)` for a string: its length in UTF-8 bytes. -/
def utf8Len (w : List Char) : Nat :=
  w.foldl (fun n c => n + c.utf8Size) 0

/-- `needle` is a leading piece of `hay`. -/
def startsWith : List Char → List Char → Bool
  | [], _ => true
  | _ :: _, [] => false
  | n :: ns, h :: hs => n == h && startsWith ns hs

/-- Go `strings.Contains hay needle`: substring occurrence. -/
def containsSub (hay needle : List Char) : Bool :=
  startsWith needle hay ||
    match hay with
    | [] => false
    | _ :: t => containsSub t needle

/-- Number of characters in the CJK Unified Ideographs range
(vector.go lines 115-122). -/
def cjkCount (runes : List Char) : Nat :=
  runes.countP (fun r => decide (0x4E00 ≤ r.toNat) && decide (r.toNat ≤ 0x9FFF))

/-- The branch condition `cjkRatio > 0.3` of vector.go line 124, written as
an exact comparison of rationals: `cjkCount / len > 3/10  ↔  10*cjkCount >
3*len`.  (For empty text Go computes `0.0/0.0 = NaN`, and `NaN > 0.3` is
false; here `0 > 0` is false as well, selecting the same branch.) -/
def cjkDominant (runes : List Char) : Bool :=
  decide (3 * runes.length < 10 * cjkCount runes)

/-- The windowing loop of `splitText` (vector.go lines 127-139 and 145-157),
generic in the unit (runes or words).  `i` is the Go loop index (a Go `int`,
so `Int` here); one fuel unit is spent per iteration, so `none` means the
loop iterated beyond any bound (divergence).  A negative `i` would make the
Go slice expression `units[i:end]` panic, also modelled as `none`. -/
def chunkLoop (units : List α) (chunkSize chunkOverlap : Int) :
    Nat → Int → List (List α) → Option (List (List α))
  | 0, _, _ => none
  | fuel + 1, i, acc =>
    if i < (units.length : Int) then
      let e : Int := if i + chunkSize > (units.length : Int) then
          (units.length : Int) else i + chunkSize
      if 0 ≤ i then
        let chunk := (units.drop i.toNat).take (e - i).toNat
        let acc2 := acc ++ [chunk]
        if (units.length : Int) ≤ e then some acc2
        else chunkLoop units chunkSize chunkOverlap fuel
          (i + (chunkSize - chunkOverlap)) acc2
      else none
    else some acc

/-- `splitText` of vector.go lines 102-162.  The word branch of the source
builds each chunk by `strings.Join(words[i:end], " ")` inside the loop;
joining the word slices after the loop yields the same chunk list. -/
def splitText (text : List Char) (chunkSize chunkOverlap : Int) (fuel : Nat) :
    Option (List (List Char)) :=
  let size := if chunkSize ≤ 0 then 1000 else chunkSize
  let overlap := if chunkOverlap < 0 then 200 else chunkOverlap
  if cjkDominant text then
    chunkLoop text size overlap fuel 0 []
  else
    (chunkLoop (fields text) size overlap fuel 0 []).map
      (fun cs => cs.map joinSpace)

/-- A `schema.Document` as built by `IngestText`: page content plus the
`source` and `chunk` metadata entries. -/
structure Document where
  pageContent : List Char
  source : String
  chunk : Nat
deriving DecidableEq

/-- The fixed Chinese question keywords of vector.go line 222. -/
def questionKeywords : List (List Char) :=
  ["介绍".data, "什么".data, "啥".data, "内容".data, "文档".data, "说".data]

/-- The per-document score of vector.go lines 192-229, for an already
lower-cased query against already lower-cased content.
`s1`: full-query substring bonus; `s2`: query-character coverage bonus;
`s3`: word bonus (`len(word) > 2` is Go byte length, hence `utf8Len`);
`s4`: Chinese question-keyword bonus (the `break` makes it fire at most
once, i.e. an existence test). -/
def scoreDoc (queryLower content : List Char) : ℚ :=
  let s1 : ℚ := if containsSub content queryLower then 10 else 0
  let matchCount := queryLower.countP (fun r => content.contains r)
  let s2 : ℚ := if 0 < matchCount then
      ((matchCount : ℚ) / (queryLower.length : ℚ)) * 5 else 0
  let s3 : ℚ := (fields queryLower).foldl
      (fun sc w => if 2 < utf8Len w && containsSub content w then sc + 2 else sc) 0
  let s4 : ℚ := if questionKeywords.any (fun k => containsSub queryLower k)
      then 1 else 0
  s1 + s2 + s3 + s4

/-- Lower-casing as applied by `strings.ToLower`, character-wise.
`Char.toLower` maps the ASCII range exactly as Go does; the full Unicode
case table beyond ASCII is not reproduced (no claim depends on it). -/
def lowerStr (s : List Char) : List Char :=
  s.map Char.toLower

/-- The candidate list of vector.go lines 190-234: each document in stored
order paired with its score, keeping only strictly positive scores. -/
def candidates (docs : List Document) (queryLower : List Char) :
    List (Document × ℚ) :=
  docs.filterMap (fun d =>
    let sc := scoreDoc queryLower (lowerStr d.pageContent)
    if 0 < sc then some (d, sc) else none)

/-- The inner loop of the sort at vector.go lines 239-245, for one fixed
outer index: walk the remaining list with the current occupant `p` of
position `i`, swapping whenever a later element scores strictly higher.
Returns the final occupant of position `i` and the rest of the array. -/
def bubblePass (p : Document × ℚ) : List (Document × ℚ) →
    (Document × ℚ) × List (Document × ℚ)
  | [] => (p, [])
  | x :: xs =>
    if p.2 < x.2 then
      let r := bubblePass x xs
      (r.1, p :: r.2)
    else
      let r := bubblePass p xs
      (r.1, x :: r.2)

/-- The outer loop of the sort at vector.go lines 239-245: `n` counts the
remaining outer-loop iterations; the Go loop performs exactly one per
element of the array, so the sort below runs it with `n = length`.
(`bubblePass` preserves length, so the `0` case with a non-empty list is
never reached from that entry point.) -/
def exchangeSortAux : Nat → List (Document × ℚ) → List (Document × ℚ)
  | 0, l => l
  | _ + 1, [] => []
  | n + 1, x :: xs => (bubblePass x xs).1 :: exchangeSortAux n (bubblePass x xs).2

/-- The full exchange sort of vector.go lines 239-245 (score descending). -/
def exchangeSort (l : List (Document × ℚ)) : List (Document × ℚ) :=
  exchangeSortAux l.length l

/-- The fallback loop of vector.go lines 251-254:
`for i := 0; i < len(result); i++ { result = append(result, vs.docs[i]) }`.
`result` starts empty (`make` with length 0), so the guard `i < len(result)`
is checked against the *current* length of `result`.  An out-of-range
`vs.docs[i]` would panic (`none`); if the loop body ever ran, `result`
would grow in step with `i` and the loop could only stop by panicking or
running forever, hence the fuel. -/
def fallbackLoop (docs : List Document) :
    Nat → Nat → List Document → Option (List Document)
  | 0, _, _ => none
  | fuel + 1, i, result =>
    if i < result.length then
      match docs[i]? with
      | some d => fallbackLoop docs fuel (i + 1) (result ++ [d])
      | none => none
    else some result

/-- `SimilaritySearch` of vector.go lines 165-269.  The source sorts the
score array in place and then tests `len(scores) == 0`; sorting an empty
array leaves it empty, so testing before sorting is equivalent. -/
def SimilaritySearch (docs : List Document) (query : List Char)
    (numDocs : Int) (fuel : Nat) : Option (List Document) :=
  let n := if numDocs ≤ 0 then 5 else numDocs
  if docs.length = 0 then some []
  else
    let queryLower := lowerStr query
    let scores := candidates docs queryLower
    if scores.length = 0 then fallbackLoop docs fuel 0 []
    else some (((exchangeSort scores).take n.toNat).map Prod.fst)

/-- The filtering loop of `Delete` (vector.go lines 283-289): keep, in
order, every document whose source differs from the argument. -/
def deleteDocs (docs : List Document) (source : String) : List Document :=
  docs.foldl
    (fun filtered doc =>
      if doc.source ≠ source then filtered ++ [doc] else filtered) []

/-- `Delete` of vector.go lines 279-292; the Go function always returns a
`nil` error. -/
def Delete (docs : List Document) (source : String) :
    Except String (List Document) :=
  Except.ok (deleteDocs docs source)

/-- Reference form of the windowing loop for a positive advance, indexed
by natural numbers: the advance per iteration is `stepM + 1`, i.e. the
Go `chunkSize - chunkOverlap` when that difference is positive.  Used to
reason about `chunkLoop` when `0 ≤ chunkOverlap < chunkSize`. -/
def chunksNat (units : List α) (size stepM : Nat) (i : Nat) :
    List (List α) :=
  if h : i < units.length then
    let e := min (i + size) units.length
    let chunk := (units.drop i).take (e - i)
    if units.length ≤ e then [chunk]
    else chunk :: chunksNat units size stepM (i + stepM + 1)
  else []
termination_by units.length - i
decreasing_by omega

/-- The length of the input in the unit `splitText` selects for it:
characters for CJK-dominant text, whitespace-delimited words otherwise. -/
def unitLen (text : List Char) : Nat :=
  if cjkDominant text then text.length else (fields text).length

/-- The character-count branch of `splitText` (vector.go lines 124-139),
as a standalone operation on the resolved parameters. -/
def splitByCharCount (text : List Char) (size overlap : Int) (fuel : Nat) :
    Option (List (List Char)) :=
  chunkLoop text size overlap fuel 0 []

/-- The word-count branch of `splitText` (vector.go lines 140-158),
as a standalone operation on the resolved parameters. -/
def splitByWordCount (text : List Char) (size overlap : Int) (fuel : Nat) :
    Option (List (List Char)) :=
  (chunkLoop (fields text) size overlap fuel 0 []).map
    (fun cs => cs.map joinSpace)

/-- The chunk-count formula claimed by the spec for `L > 0`:
`ceil(max(L - O, 0) / (S - O))`, written with natural subtraction (which
realizes the `max(·, 0)`) and the usual `ceil(a/b) = (a + b - 1) / b`. -/
def specChunkCountFormula (L size overlap : Nat) : Nat :=
  (L - overlap + (size - overlap) - 1) / (size - overlap)

/-- Chunk count actually produced by the windowing loop for unit length
`L` and resolved `0 ≤ overlap < size`: the spec's formula for `L > overlap`,
but one chunk — not zero — when `0 < L ≤ overlap`, and none when `L = 0`. -/
def amendedChunkCount (L size overlap : Nat) : Nat :=
  if L = 0 then 0
  else if L ≤ overlap then 1
  else (L - overlap + (size - overlap) - 1) / (size - overlap)

/-- Scoring rule 1 of vector.go lines 196-198: full-query substring bonus. -/
def substrScore (queryLower content : List Char) : ℚ :=
  if containsSub content queryLower then 10 else 0

/-- Scoring rule 2 of vector.go lines 202-211: query-character coverage. -/
def charCoverScore (queryLower content : List Char) : ℚ :=
  let matchCount := queryLower.countP (fun r => content.contains r)
  if 0 < matchCount then
    ((matchCount : ℚ) / (queryLower.length : ℚ)) * 5 else 0

/-- Scoring rule 4 of vector.go lines 221-229: Chinese question keywords. -/
def keywordScore (queryLower : List Char) : ℚ :=
  if questionKeywords.any (fun k => containsSub queryLower k) then 1 else 0

/-- Scoring rule 3 as the spec words it: a word qualifies when it is longer
than 2 *characters* (the source instead tests `len(word) > 2`, a UTF-8
byte length).  Kept for comparison with the source's rule. -/
def specWordScoreChars (queryLower content : List Char) : ℚ :=
  2 * (((fields queryLower).countP
    (fun w => decide (2 < w.length) && containsSub content w) : Nat) : ℚ)

/-! ### Deletion: `Delete` is the order-preserving filter -/

theorem deleteDocs_eq_filter (docs : List Document) (src : String) :
    deleteDocs docs src = docs.filter (fun d => d.source != src) := by
  suffices h : ∀ acc : List Document,
      docs.foldl
        (fun filtered doc =>
          if doc.source ≠ src then filtered ++ [doc] else filtered) acc
        = acc ++ docs.filter (fun d => d.source != src) by
    have h0 := h []
    rw [List.nil_append] at h0
    exact h0
  induction docs with
  | nil => intro acc; simp
  | cons d ds ih =>
    intro acc
    rw [List.foldl_cons, List.filter_cons]
    by_cases h : d.source = src
    · rw [if_neg (by simp [h]), ih]
      have hb : (d.source != src) = false := by simp [h]
      rw [hb]
      simp
    · rw [if_pos h, ih]
      have hb : (d.source != src) = true := by simp [h]
      rw [hb]
      simp

/-- Claim C8: `Delete` never returns an error; deleting the same source a
second time, or a source no document carries, leaves the list unchanged. -/
theorem delete_ok_and_idempotent (docs : List Document) (src : String) :
    Delete docs src = Except.ok (deleteDocs docs src)
    ∧ Delete (deleteDocs docs src) src = Except.ok (deleteDocs docs src)
    ∧ ((∀ d ∈ docs, d.source ≠ src) → deleteDocs docs src = docs) := by
  refine ⟨rfl, ?_, ?_⟩
  · have h2 : deleteDocs (deleteDocs docs src) src = deleteDocs docs src := by
      rw [deleteDocs_eq_filter, deleteDocs_eq_filter docs src,
        List.filter_filter]
      simp
    rw [Delete, h2]
  · intro hall
    rw [deleteDocs_eq_filter]
    refine List.filter_eq_self.mpr ?_
    intro d hd
    simpa using hall d hd

theorem delete_ok_and_idempotent_witness :
    (Delete [⟨"x".data, "a", 0⟩] "b"
        = Except.ok (deleteDocs [⟨"x".data, "a", 0⟩] "b"))
    ∧ (Delete (deleteDocs [⟨"x".data, "a", 0⟩] "b") "b"
        = Except.ok (deleteDocs [⟨"x".data, "a", 0⟩] "b"))
    ∧ deleteDocs [⟨"x".data, "a", 0⟩] "b" = [⟨"x".data, "a", 0⟩] :=
  ⟨(delete_ok_and_idempotent [⟨"x".data, "a", 0⟩] "b").1,
   (delete_ok_and_idempotent [⟨"x".data, "a", 0⟩] "b").2.1,
   (delete_ok_and_idempotent [⟨"x".data, "a", 0⟩] "b").2.2 (by decide)⟩

/-- Claim C10: deletion keeps the surviving documents in their original
relative order — it is exactly the stable filter of the stored list. -/
theorem delete_preserves_survivor_order (docs : List Document) (src : String) :
    deleteDocs docs src = docs.filter (fun d => d.source != src) :=
  deleteDocs_eq_filter docs src

/-! ### The exchange sort of `SimilaritySearch` sorts by descending score -/

theorem bubblePass_snd_length (p : Document × ℚ) (l : List (Document × ℚ)) :
    (bubblePass p l).2.length = l.length := by
  induction l generalizing p with
  | nil => rfl
  | cons x xs ih =>
    by_cases h : p.2 < x.2 <;> simp [bubblePass, h, ih]

theorem bubblePass_perm (p : Document × ℚ) (l : List (Document × ℚ)) :
    List.Perm ((bubblePass p l).1 :: (bubblePass p l).2) (p :: l) := by
  induction l generalizing p with
  | nil => simp [bubblePass]
  | cons x xs ih =>
    by_cases h : p.2 < x.2
    · simp only [bubblePass, if_pos h]
      exact List.Perm.trans (List.Perm.swap _ _ _) ((ih x).cons p)
    · simp only [bubblePass, if_neg h]
      exact List.Perm.trans (List.Perm.swap _ _ _)
        (List.Perm.trans ((ih p).cons x) (List.Perm.swap _ _ _))

theorem bubblePass_fst_ge (p : Document × ℚ) (l : List (Document × ℚ)) :
    ∀ x ∈ p :: l, x.2 ≤ (bubblePass p l).1.2 := by
  induction l generalizing p with
  | nil =>
    intro x hx
    rcases List.mem_singleton.mp hx with rfl
    exact le_refl _
  | cons y ys ih =>
    intro x hx
    rcases List.mem_cons.mp hx with rfl | hx
    · by_cases h : x.2 < y.2
      · simp only [bubblePass, if_pos h]
        exact le_trans (le_of_lt h) (ih y y (List.mem_cons_self _ _))
      · simp only [bubblePass, if_neg h]
        exact ih x x (List.mem_cons_self _ _)
    · by_cases h : p.2 < y.2
      · simp only [bubblePass, if_pos h]
        exact ih y x hx
      · simp only [bubblePass, if_neg h]
        rcases List.mem_cons.mp hx with rfl | hx
        · exact le_trans (le_of_not_lt h) (ih p p (List.mem_cons_self _ _))
        · exact ih p x (List.mem_cons_of_mem _ hx)

theorem exchangeSortAux_perm :
    ∀ (n : Nat) (l : List (Document × ℚ)), l.length ≤ n →
      List.Perm (exchangeSortAux n l) l := by
  intro n
  induction n with
  | zero => intro l _; exact List.Perm.refl _
  | succ n ih =>
    intro l h
    match l with
    | [] => exact List.Perm.refl _
    | x :: xs =>
      simp only [exchangeSortAux]
      have h2 : (bubblePass x xs).2.length ≤ n := by
        rw [bubblePass_snd_length]
        simpa using h
      exact List.Perm.trans ((ih _ h2).cons _) (bubblePass_perm x xs)

theorem exchangeSortAux_sorted :
    ∀ (n : Nat) (l : List (Document × ℚ)), l.length ≤ n →
      List.Sorted (fun a b : Document × ℚ => b.2 ≤ a.2)
        (exchangeSortAux n l) := by
  intro n
  induction n with
  | zero =>
    intro l h
    have : l = [] := List.eq_nil_of_length_eq_zero (Nat.le_zero.mp h)
    subst this
    exact List.sorted_nil
  | succ n ih =>
    intro l h
    match l with
    | [] => exact List.sorted_nil
    | x :: xs =>
      simp only [exchangeSortAux]
      have h2 : (bubblePass x xs).2.length ≤ n := by
        rw [bubblePass_snd_length]
        simpa using h
      refine List.sorted_cons.mpr ⟨?_, ih _ h2⟩
      intro b hb
      have hb2 : b ∈ (bubblePass x xs).1 :: (bubblePass x xs).2 :=
        List.mem_cons_of_mem _ ((exchangeSortAux_perm n _ h2).mem_iff.mp hb)
      exact bubblePass_fst_ge x xs b ((bubblePass_perm x xs).mem_iff.mp hb2)

theorem exchangeSort_perm (l : List (Document × ℚ)) :
    List.Perm (exchangeSort l) l :=
  exchangeSortAux_perm l.length l le_rfl

theorem exchangeSort_sorted (l : List (Document × ℚ)) :
    List.Sorted (fun a b : Document × ℚ => b.2 ≤ a.2) (exchangeSort l) :=
  exchangeSortAux_sorted l.length l le_rfl

/-! ### Scoring -/

theorem wordFold_eq_countP (content : List Char) :
    ∀ (ws : List (List Char)) (init : ℚ),
      ws.foldl (fun sc w =>
          if 2 < utf8Len w && containsSub content w then sc + 2 else sc) init
        = init + 2 * (ws.countP
            (fun w => decide (2 < utf8Len w) && containsSub content w) : ℚ) := by
  intro ws
  induction ws with
  | nil => intro init; simp
  | cons w ws ih =>
    intro init
    rw [List.foldl_cons, List.countP_cons]
    by_cases h : (decide (2 < utf8Len w) && containsSub content w) = true
    · rw [if_pos h, ih, h]
      simp
      ring
    · rw [if_neg h, ih]
      rw [Bool.not_eq_true] at h
      rw [h]
      simp

theorem scoreDoc_eq_parts (q c : List Char) :
    scoreDoc q c
      = substrScore q c + charCoverScore q c
        + ((fields q).foldl (fun sc w =>
            if 2 < utf8Len w && containsSub c w then sc + 2 else sc) 0)
        + keywordScore q := rfl

theorem substrScore_nonneg (q c : List Char) : 0 ≤ substrScore q c := by
  unfold substrScore
  split <;> norm_num

theorem charCoverScore_nonneg (q c : List Char) : 0 ≤ charCoverScore q c := by
  unfold charCoverScore
  dsimp only
  split
  · positivity
  · exact le_refl 0

theorem keywordScore_nonneg (q : List Char) : 0 ≤ keywordScore q := by
  unfold keywordScore
  split <;> norm_num

theorem scoreDoc_ge_ten_of_contains (q c : List Char)
    (h : containsSub c q = true) : 10 ≤ scoreDoc q c := by
  rw [scoreDoc_eq_parts, wordFold_eq_countP c (fields q) 0]
  have h1 : substrScore q c = 10 := by unfold substrScore; rw [if_pos h]
  have h2 := charCoverScore_nonneg q c
  have h3 : (0 : ℚ) ≤ 2 * ((fields q).countP
      (fun w => decide (2 < utf8Len w) && containsSub c w) : Nat) := by
    positivity
  have h4 := keywordScore_nonneg q
  linarith

/-- Claim C5, amended: in the word-bonus rule each whitespace-delimited word
of the lower-cased query that is longer than 2 UTF-8 *bytes* (Go `len`) and
occurs as a substring of the chunk text contributes exactly 2.0, additively
per qualifying word with no cap; shorter words contribute nothing through
this rule. -/
theorem score_word_bonus_per_long_byte_word (q c : List Char) :
    scoreDoc q c
      = substrScore q c + charCoverScore q c
        + 2 * ((fields q).countP
            (fun w => decide (2 < utf8Len w) && containsSub c w) : ℚ)
        + keywordScore q := by
  rw [scoreDoc_eq_parts, wordFold_eq_countP]
  ring

/-- Claim C5, counterexample to the claim as stated: the query `中` is a
single word of one *character* (three UTF-8 bytes).  Under the claim's
reading (`longer than 2 characters`) the word rule contributes nothing and
the score against content `中x` would be `10 + 5 + 0 + 0 = 15`; the code's
byte-length test qualifies the word, and the score is `17`. -/
theorem score_word_bonus_chars_refuted :
    scoreDoc ['中'] ['中', 'x'] = 17
    ∧ substrScore ['中'] ['中', 'x'] + charCoverScore ['中'] ['中', 'x']
        + specWordScoreChars ['中'] ['中', 'x'] + keywordScore ['中'] = 15 :=
  ⟨of_decide_eq_true (by with_unfolding_all rfl),
   of_decide_eq_true (by with_unfolding_all rfl)⟩

/-- Claim C7: a chunk whose lower-cased text contains the whole lower-cased
(non-empty) query scores at least the 10.0 substring bonus, hence strictly
more than 0, and is therefore among the ranking candidates. -/
theorem substring_match_is_candidate (docs : List Document)
    (query : List Char) (d : Document) (hd : d ∈ docs) (hq : query ≠ [])
    (hsub : containsSub (lowerStr d.pageContent) (lowerStr query) = true) :
    10 ≤ scoreDoc (lowerStr query) (lowerStr d.pageContent)
    ∧ 0 < scoreDoc (lowerStr query) (lowerStr d.pageContent)
    ∧ (d, scoreDoc (lowerStr query) (lowerStr d.pageContent))
        ∈ candidates docs (lowerStr query) := by
  have h10 := scoreDoc_ge_ten_of_contains _ _ hsub
  have hpos : (0 : ℚ) < scoreDoc (lowerStr query) (lowerStr d.pageContent) :=
    lt_of_lt_of_le (by norm_num) h10
  refine ⟨h10, hpos, ?_⟩
  refine List.mem_filterMap.mpr ⟨d, hd, ?_⟩
  simp only [candidates]
  rw [if_pos hpos]

theorem substring_match_is_candidate_witness :
    10 ≤ scoreDoc (lowerStr "world".data) (lowerStr "Hello World".data)
    ∧ 0 < scoreDoc (lowerStr "world".data) (lowerStr "Hello World".data)
    ∧ ((⟨"Hello World".data, "s", 0⟩ : Document),
        scoreDoc (lowerStr "world".data) (lowerStr "Hello World".data))
        ∈ candidates [⟨"Hello World".data, "s", 0⟩] (lowerStr "world".data) :=
  substring_match_is_candidate [⟨"Hello World".data, "s", 0⟩] "world".data
    ⟨"Hello World".data, "s", 0⟩ (by decide) (by decide) (by decide)

/-! ### Search: fallback and ranking -/

theorem candidates_ne_nil_imp_docs_ne_nil (docs : List Document)
    (q : List Char) (h : candidates docs q ≠ []) : docs ≠ [] := by
  intro hd
  subst hd
  exact h rfl

/-- Claim C1 (code bug): when the index is non-empty and no chunk scores
positively, `SimilaritySearch` returns the *empty* list — the fallback loop
`for i := 0; i < len(result); i++` tests against the length of the freshly
made empty `result` slice, so it never copies a document. -/
theorem fallback_returns_empty (docs : List Document) (query : List Char)
    (numDocs : Int) (fuel : Nat) (hd : docs ≠ [])
    (hc : candidates docs (lowerStr query) = []) :
    SimilaritySearch docs query numDocs (fuel + 1) = some [] := by
  simp only [SimilaritySearch, hc]
  rw [if_neg (by simpa [List.length_eq_zero] using hd)]
  simp [fallbackLoop]

theorem fallback_returns_empty_witness :
    ([⟨"abc".data, "doc.txt", 0⟩] : List Document) ≠ []
    ∧ candidates [⟨"abc".data, "doc.txt", 0⟩] (lowerStr "z".data) = []
    ∧ SimilaritySearch [⟨"abc".data, "doc.txt", 0⟩] "z".data 5 1 = some [] :=
  ⟨by decide, by with_unfolding_all decide,
   fallback_returns_empty [⟨"abc".data, "doc.txt", 0⟩] "z".data 5 0
     (by decide) (by with_unfolding_all decide)⟩

/-- Claim C9: when at least one chunk scores positively, the search returns
the first `min(limit, #candidates)` documents of a score-descending
reordering of the candidate list, so every returned candidate scores at
least as high as every candidate left out. -/
theorem ranking_top_limit (docs : List Document) (query : List Char)
    (numDocs : Int) (fuel : Nat)
    (h : candidates docs (lowerStr query) ≠ []) :
    SimilaritySearch docs query numDocs fuel
      = some (((exchangeSort (candidates docs (lowerStr query))).take
          (if numDocs ≤ 0 then 5 else numDocs).toNat).map Prod.fst)
    ∧ List.Perm (exchangeSort (candidates docs (lowerStr query)))
        (candidates docs (lowerStr query))
    ∧ List.Sorted (fun a b : Document × ℚ => b.2 ≤ a.2)
        (exchangeSort (candidates docs (lowerStr query)))
    ∧ (((exchangeSort (candidates docs (lowerStr query))).take
          (if numDocs ≤ 0 then 5 else numDocs).toNat).map Prod.fst).length
        = min (if numDocs ≤ 0 then 5 else numDocs).toNat
            (candidates docs (lowerStr query)).length
    ∧ ∀ a ∈ (exchangeSort (candidates docs (lowerStr query))).take
          (if numDocs ≤ 0 then 5 else numDocs).toNat,
      ∀ b ∈ (exchangeSort (candidates docs (lowerStr query))).drop
          (if numDocs ≤ 0 then 5 else numDocs).toNat,
        b.2 ≤ a.2 := by
  have hd : docs ≠ [] := candidates_ne_nil_imp_docs_ne_nil docs _ h
  refine ⟨?_, exchangeSort_perm _, exchangeSort_sorted _, ?_, ?_⟩
  · simp only [SimilaritySearch]
    rw [if_neg (by simpa [List.length_eq_zero] using hd),
      if_neg (by simpa [List.length_eq_zero] using h)]
  · rw [List.length_map, List.length_take,
      (exchangeSort_perm (candidates docs (lowerStr query))).length_eq]
  · intro a ha b hb
    exact (exchangeSort_sorted
      (candidates docs (lowerStr query))).rel_of_mem_take_of_mem_drop ha hb

theorem ranking_top_limit_witness :
    SimilaritySearch [⟨"apple pie".data, "a", 0⟩, ⟨"banana".data, "b", 0⟩]
        "apple".data 1 0
      = some (((exchangeSort (candidates
          [⟨"apple pie".data, "a", 0⟩, ⟨"banana".data, "b", 0⟩]
          (lowerStr "apple".data))).take
            (if (1 : Int) ≤ 0 then (5 : Int) else 1).toNat).map Prod.fst)
    ∧ List.Perm (exchangeSort (candidates
        [⟨"apple pie".data, "a", 0⟩, ⟨"banana".data, "b", 0⟩]
        (lowerStr "apple".data)))
        (candidates [⟨"apple pie".data, "a", 0⟩, ⟨"banana".data, "b", 0⟩]
          (lowerStr "apple".data))
    ∧ List.Sorted (fun a b : Document × ℚ => b.2 ≤ a.2)
        (exchangeSort (candidates
          [⟨"apple pie".data, "a", 0⟩, ⟨"banana".data, "b", 0⟩]
          (lowerStr "apple".data)))
    ∧ (((exchangeSort (candidates
          [⟨"apple pie".data, "a", 0⟩, ⟨"banana".data, "b", 0⟩]
          (lowerStr "apple".data))).take
            (if (1 : Int) ≤ 0 then (5 : Int) else 1).toNat).map Prod.fst).length
        = min (if (1 : Int) ≤ 0 then (5 : Int) else 1).toNat
            (candidates [⟨"apple pie".data, "a", 0⟩, ⟨"banana".data, "b", 0⟩]
              (lowerStr "apple".data)).length
    ∧ ∀ a ∈ (exchangeSort (candidates
          [⟨"apple pie".data, "a", 0⟩, ⟨"banana".data, "b", 0⟩]
          (lowerStr "apple".data))).take
            (if (1 : Int) ≤ 0 then (5 : Int) else 1).toNat,
      ∀ b ∈ (exchangeSort (candidates
          [⟨"apple pie".data, "a", 0⟩, ⟨"banana".data, "b", 0⟩]
          (lowerStr "apple".data))).drop
            (if (1 : Int) ≤ 0 then (5 : Int) else 1).toNat,
        b.2 ≤ a.2 :=
  ranking_top_limit [⟨"apple pie".data, "a", 0⟩, ⟨"banana".data, "b", 0⟩]
    "apple".data 1 0 (by with_unfolding_all decide)

/-! ### Chunking -/

theorem chunksNat_pos (units : List α) (size stepM i : Nat)
    (hi : i < units.length) :
    chunksNat units size stepM i
      = if units.length ≤ min (i + size) units.length
          then [(units.drop i).take (min (i + size) units.length - i)]
          else (units.drop i).take (min (i + size) units.length - i)
            :: chunksNat units size stepM (i + stepM + 1) := by
  conv_lhs => rw [chunksNat]
  simp only [dif_pos hi]

theorem chunksNat_neg (units : List α) (size stepM i : Nat)
    (hi : ¬ i < units.length) :
    chunksNat units size stepM i = [] := by
  conv_lhs => rw [chunksNat]
  simp only [dif_neg hi]

theorem chunkLoop_eq_chunksNat (units : List α) (S O : Int)
    (hO : 0 ≤ O) (hOS : O < S) :
    ∀ (fuel i : Nat) (acc : List (List α)),
      units.length - i < fuel →
      chunkLoop units S O fuel (i : Int) acc
        = some (acc ++ chunksNat units S.toNat ((S - O).toNat - 1) i) := by
  have hS : 0 < S := lt_of_le_of_lt hO hOS
  have hSN : (S.toNat : Int) = S := Int.toNat_of_nonneg (le_of_lt hS)
  have hSON : ((S - O).toNat : Int) = S - O := Int.toNat_of_nonneg (by omega)
  intro fuel
  induction fuel with
  | zero => intro i acc h; omega
  | succ fuel ih =>
    intro i acc h
    simp only [chunkLoop]
    by_cases hi : i < units.length
    · rw [if_pos (by exact_mod_cast hi)]
      rw [if_pos (Int.natCast_nonneg i)]
      by_cases hbig : (units.length : Int) < (i : Int) + S
      · have he : (if (i : Int) + S > (units.length : Int)
            then (units.length : Int) else (i : Int) + S)
            = (units.length : Int) := if_pos hbig
        rw [he, if_pos (le_refl ((units.length : Int)))]
        rw [chunksNat_pos units _ _ _ hi]
        have hmin : min (i + S.toNat) units.length = units.length := by omega
        rw [hmin, if_pos (le_refl units.length)]
        have h1 : ((i : Int)).toNat = i := Int.toNat_natCast i
        have h2 : (((units.length : Nat) : Int) - (i : Int)).toNat
            = units.length - i := by omega
        rw [h1, h2]
      · have he : (if (i : Int) + S > (units.length : Int)
            then (units.length : Int) else (i : Int) + S)
            = (i : Int) + S := if_neg hbig
        rw [he]
        have h1 : ((i : Int)).toNat = i := Int.toNat_natCast i
        have h2 : ((i : Int) + S - (i : Int)).toNat = i + S.toNat - i := by
          omega
        by_cases hend : (units.length : Int) ≤ (i : Int) + S
        · rw [if_pos hend]
          rw [chunksNat_pos units _ _ _ hi]
          have hmin : min (i + S.toNat) units.length = i + S.toNat := by omega
          rw [hmin, if_pos (by omega), h1, h2]
        · rw [if_neg hend]
          have hstep : (i : Int) + (S - O)
              = ((i + (S - O).toNat : Nat) : Int) := by
            push_cast
            omega
          rw [hstep, ih (i + (S - O).toNat) _ (by omega)]
          rw [chunksNat_pos units _ _ _ hi]
          have hmin : min (i + S.toNat) units.length = i + S.toNat := by omega
          rw [hmin, if_neg (by omega)]
          have hidx : i + ((S - O).toNat - 1) + 1 = i + (S - O).toNat := by
            omega
          rw [hidx, h1, h2]
          simp
    · rw [if_neg (by exact_mod_cast hi)]
      rw [chunksNat_neg units _ _ _ hi]
      simp

theorem chunksNat_length (units : List α) (size stepM : Nat)
    (hstep : stepM + 1 ≤ size) :
    ∀ i, (chunksNat units size stepM i).length
      = if units.length ≤ i then 0
        else 1 + (units.length - i - size + stepM) / (stepM + 1) := by
  suffices hk : ∀ (k i : Nat), units.length - i ≤ k →
      (chunksNat units size stepM i).length
        = if units.length ≤ i then 0
          else 1 + (units.length - i - size + stepM) / (stepM + 1) by
    intro i
    exact hk units.length i (by omega)
  intro k
  induction k with
  | zero =>
    intro i hki
    have hi : ¬ i < units.length := by omega
    rw [chunksNat_neg units _ _ _ hi, if_pos (by omega)]
    rfl
  | succ k ihk =>
    intro i hki
    by_cases hi : i < units.length
    · have hneg : ¬ units.length ≤ i := by omega
      by_cases hend : units.length ≤ min (i + size) units.length
      · rw [chunksNat_pos units _ _ _ hi, if_pos hend, if_neg hneg]
        have ha : units.length - i - size = 0 := by omega
        rw [ha]
        have hq : (0 + stepM) / (stepM + 1) = 0 :=
          Nat.div_eq_of_lt (by omega)
        rw [hq]
        simp
      · rw [chunksNat_pos units _ _ _ hi, if_neg hend, if_neg hneg]
        have hlt : i + size < units.length := by omega
        rw [List.length_cons,
          ihk (i + stepM + 1) (by omega), if_neg (by omega)]
        have hsplit : units.length - (i + stepM + 1) - size + stepM
            = units.length - i - size - (stepM + 1) + stepM := by omega
        rw [hsplit]
        have ha : 1 ≤ units.length - i - size := by omega
        rcases le_or_lt (stepM + 1) (units.length - i - size) with hge | hlt2
        · have hsum : units.length - i - size + stepM
              = (units.length - i - size - (stepM + 1) + stepM)
                + (stepM + 1) := by omega
          rw [hsum, Nat.add_div_right _ (by omega)]
          omega
        · have hz : units.length - i - size - (stepM + 1) = 0 := by omega
          rw [hz]
          have hone : (units.length - i - size + stepM) / (stepM + 1) = 1 :=
            Nat.div_eq_of_lt_le (by omega) (by omega)
          have hzero : (0 + stepM) / (stepM + 1) = 0 :=
            Nat.div_eq_of_lt (by omega)
          rw [hone, hzero]
    · rw [chunksNat_neg units _ _ _ hi, if_pos (by omega)]
      rfl

theorem chunksNat_count_closed (units : List α) (size ov : Nat)
    (hov : ov < size) (hL : 0 < units.length) :
    (chunksNat units size (size - ov - 1) 0).length
      = amendedChunkCount units.length size ov := by
  rw [chunksNat_length units size (size - ov - 1) (by omega) 0,
    if_neg (by omega)]
  unfold amendedChunkCount
  rw [if_neg (by omega)]
  have hstep : size - ov - 1 + 1 = size - ov := by omega
  by_cases hlo : units.length ≤ ov
  · rw [if_pos hlo]
    have ha : units.length - 0 - size = 0 := by omega
    rw [ha, hstep]
    have hz : (0 + (size - ov - 1)) / (size - ov) = 0 :=
      Nat.div_eq_of_lt (by omega)
    rw [hz]
  · rw [if_neg hlo]
    rcases le_or_lt units.length size with hle | hgt
    · have hnum : units.length - 0 - size = 0 := by omega
      rw [hnum, hstep]
      have hz : (0 + (size - ov - 1)) / (size - ov) = 0 :=
        Nat.div_eq_of_lt (by omega)
      rw [hz]
      have hone : (units.length - ov + (size - ov) - 1) / (size - ov) = 1 :=
        Nat.div_eq_of_lt_le (by omega) (by omega)
      rw [hone]
    · rw [hstep]
      have hnum : units.length - ov + (size - ov) - 1
          = (units.length - 0 - size + (size - ov - 1)) + (size - ov) := by
        omega
      rw [hnum, Nat.add_div_right _ (by omega)]
      omega

/-! ### Chunking claims -/

/-- Claim C6: `splitText` routes on the CJK character fraction — strictly
above 0.3 of all characters splits by character count, at or below 0.3
splits by whitespace-delimited word count. -/
theorem split_routing_by_cjk_fraction (text : List Char) (cS cO : Int)
    (fuel : Nat) :
    (3 * text.length < 10 * cjkCount text →
      splitText text cS cO fuel
        = splitByCharCount text (if cS ≤ 0 then (1000 : Int) else cS)
            (if cO < 0 then (200 : Int) else cO) fuel)
    ∧ (10 * cjkCount text ≤ 3 * text.length →
      splitText text cS cO fuel
        = splitByWordCount text (if cS ≤ 0 then (1000 : Int) else cS)
            (if cO < 0 then (200 : Int) else cO) fuel) := by
  constructor
  · intro h
    have hc : cjkDominant text = true := by
      simp only [cjkDominant, decide_eq_true_eq]
      exact h
    simp only [splitText, splitByCharCount, hc, if_true]
  · intro h
    have hc : cjkDominant text = false := by
      simp only [cjkDominant, decide_eq_false_iff_not, not_lt]
      exact h
    simp only [splitText, splitByWordCount, hc, Bool.false_eq_true,
      if_false]

theorem split_routing_by_cjk_fraction_witness :
    (splitText "一二abc".data 2 0 10
      = splitByCharCount "一二abc".data
          (if (2 : Int) ≤ 0 then (1000 : Int) else 2)
          (if (0 : Int) < 0 then (200 : Int) else 0) 10)
    ∧ (splitText "一abcdefghi".data 2 0 10
      = splitByWordCount "一abcdefghi".data
          (if (2 : Int) ≤ 0 then (1000 : Int) else 2)
          (if (0 : Int) < 0 then (200 : Int) else 0) 10) :=
  ⟨(split_routing_by_cjk_fraction "一二abc".data 2 0 10).1 (by decide),
   (split_routing_by_cjk_fraction "一abcdefghi".data 2 0 10).2 (by decide)⟩

theorem chunkLoop_zero_step_diverges (units : List α) (S : Int) (hS : 0 < S) :
    ∀ (fuel i : Nat) (acc : List (List α)),
      (i : Int) + S < (units.length : Int) →
      chunkLoop units S S fuel (i : Int) acc = none := by
  intro fuel
  induction fuel with
  | zero => intro i acc _; rfl
  | succ fuel ih =>
    intro i acc h
    simp only [chunkLoop]
    rw [if_pos (show (i : Int) < (units.length : Int) by omega)]
    rw [if_pos (Int.natCast_nonneg i)]
    have he : (if (i : Int) + S > (units.length : Int)
        then (units.length : Int) else (i : Int) + S)
        = (i : Int) + S := if_neg (by omega)
    rw [he, if_neg (show ¬ (units.length : Int) ≤ (i : Int) + S by omega)]
    have hstep : (i : Int) + (S - S) = (i : Int) := by ring
    rw [hstep]
    exact ih i _ h

/-- Claim C2 (code bug): `splitText` never checks `chunkOverlap ≥ chunkSize`.
With `chunkOverlap = chunkSize > 0` and a CJK-dominant text longer than
`chunkSize`, the windowing loop advances by zero positions each iteration
and never terminates: the fuelled model returns `none` for every fuel. -/
theorem split_overlap_eq_size_diverges (text : List Char) (S : Int)
    (fuel : Nat) (hS : 0 < S) (hcjk : cjkDominant text = true)
    (hlen : S < (text.length : Int)) :
    splitText text S S fuel = none := by
  simp only [splitText, hcjk, if_true]
  rw [if_neg (show ¬ S ≤ 0 by omega), if_neg (show ¬ S < 0 by omega)]
  have h := chunkLoop_zero_step_diverges text S hS fuel 0 []
    (by simpa using hlen)
  simpa using h

theorem split_overlap_eq_size_diverges_witness :
    (0 : Int) < 1 ∧ cjkDominant "一二".data = true
    ∧ (1 : Int) < ("一二".data.length : Int)
    ∧ splitText "一二".data 1 1 7 = none :=
  ⟨by decide, by decide, by decide,
   split_overlap_eq_size_diverges "一二".data 1 7
     (by decide) (by decide) (by decide)⟩

/-- Claim C3, amended: with resolved `0 ≤ O < S` and unit length `L`,
`splitText` produces `ceil((L−O)/(S−O))` chunks when `L > O`, exactly one
chunk when `0 < L ≤ O` (where the spec's formula says zero), and no chunks
when `L = 0`. -/
theorem split_chunk_count (text : List Char) (S O : Int) (fuel : Nat)
    (hO : 0 ≤ O) (hOS : O < S) (hfuel : unitLen text < fuel) :
    (splitText text S O fuel).map List.length
      = some (amendedChunkCount (unitLen text) S.toNat O.toNat) := by
  have hS : 0 < S := lt_of_le_of_lt hO hOS
  have hsub : (S - O).toNat - 1 = S.toNat - O.toNat - 1 := by omega
  simp only [splitText]
  rw [if_neg (show ¬ S ≤ 0 by omega), if_neg (show ¬ O < 0 by omega)]
  by_cases hc : cjkDominant text = true
  · have hLen : unitLen text = text.length := by
      rw [unitLen, if_pos hc]
    rw [hLen] at hfuel
    simp only [hc, if_true]
    rw [show ((0 : Int)) = ((0 : Nat) : Int) from rfl,
      chunkLoop_eq_chunksNat text S O hO hOS fuel 0 [] (by omega)]
    rw [hsub]
    have hpos : 0 < text.length := by
      have hcc := List.countP_le_length
        (fun r => decide (0x4E00 ≤ r.toNat) && decide (r.toNat ≤ 0x9FFF))
        (l := text)
      have hd : 3 * text.length < 10 * cjkCount text := by
        simpa [cjkDominant, decide_eq_true_eq] using hc
      unfold cjkCount at hd
      omega
    rw [List.nil_append, Option.map_some',
      chunksNat_count_closed text S.toNat O.toNat (by omega) hpos, hLen]
  · have hLen : unitLen text = (fields text).length := by
      rw [unitLen, if_neg hc]
    rw [hLen] at hfuel
    simp only [hc, Bool.false_eq_true, if_false]
    rw [show ((0 : Int)) = ((0 : Nat) : Int) from rfl,
      chunkLoop_eq_chunksNat (fields text) S O hO hOS fuel 0 [] (by omega)]
    rw [hsub, List.nil_append, Option.map_some', Option.map_some',
      List.length_map]
    by_cases hL : 0 < (fields text).length
    · rw [chunksNat_count_closed (fields text) S.toNat O.toNat (by omega) hL,
        hLen]
    · have hnil : (fields text).length = 0 := by omega
      rw [chunksNat_neg (fields text) _ _ _ (by omega)]
      rw [hLen, hnil]
      rfl

theorem split_chunk_count_witness :
    (0 : Int) ≤ 1 ∧ (1 : Int) < 2 ∧ unitLen "a b c d e".data < 10
    ∧ (splitText "a b c d e".data 2 1 10).map List.length
        = some (amendedChunkCount (unitLen "a b c d e".data)
            ((2 : Int)).toNat ((1 : Int)).toNat) :=
  ⟨by decide, by decide, by decide,
   split_chunk_count "a b c d e".data 2 1 10
     (by decide) (by decide) (by decide)⟩

/-- Claim C3, counterexample to the spec's formula as stated: the CJK text
`一` has unit length `L = 1 > 0`; with `S = 3`, `O = 2` (so `0 ≤ O < S`)
the spec's count `ceil(max(L − O, 0) / (S − O))` is `0`, but `splitText`
produces one chunk. -/
theorem spec_chunk_count_formula_refuted :
    unitLen ['一'] = 1
    ∧ (splitText ['一'] 3 2 5).map List.length = some 1
    ∧ specChunkCountFormula (unitLen ['一']) 3 2 = 0 :=
  ⟨by decide, by decide, by decide⟩

/-- Claim C4, amended: non-empty text shorter than `chunkSize` in its
selected unit yields exactly one chunk; in the CJK branch that chunk is the
whole text, in the word branch it is the text's words joined by single
spaces (so runs of whitespace are not preserved verbatim). -/
theorem split_short_text_single_chunk (text : List Char) (S O : Int)
    (fuel : Nat) (hO : 0 ≤ O) (hOS : O < S) (hL : 0 < unitLen text)
    (hLS : unitLen text < S.toNat) (hfuel : unitLen text < fuel) :
    splitText text S O fuel
      = some [if cjkDominant text then text else joinSpace (fields text)] := by
  have hS : 0 < S := lt_of_le_of_lt hO hOS
  simp only [splitText]
  rw [if_neg (show ¬ S ≤ 0 by omega), if_neg (show ¬ O < 0 by omega)]
  by_cases hc : cjkDominant text = true
  · have hLen : unitLen text = text.length := by rw [unitLen, if_pos hc]
    rw [hLen] at hL hLS hfuel
    simp only [hc, if_true]
    rw [show ((0 : Int)) = ((0 : Nat) : Int) from rfl,
      chunkLoop_eq_chunksNat text S O hO hOS fuel 0 [] (by omega),
      chunksNat_pos text _ _ _ (by omega)]
    have hmin : min (0 + S.toNat) text.length = text.length := by omega
    rw [hmin, if_pos (le_refl text.length)]
    simp
  · have hLen : unitLen text = (fields text).length := by
      rw [unitLen, if_neg hc]
    rw [hLen] at hL hLS hfuel
    simp only [hc, Bool.false_eq_true, if_false]
    rw [show ((0 : Int)) = ((0 : Nat) : Int) from rfl,
      chunkLoop_eq_chunksNat (fields text) S O hO hOS fuel 0 [] (by omega),
      chunksNat_pos (fields text) _ _ _ (by omega)]
    have hmin : min (0 + S.toNat) (fields text).length
        = (fields text).length := by omega
    rw [hmin, if_pos (le_refl (fields text).length)]
    simp

theorem split_short_text_single_chunk_witness :
    (0 : Int) ≤ 0 ∧ (0 : Int) < 10 ∧ 0 < unitLen "hi there".data
    ∧ unitLen "hi there".data < (10 : Int).toNat
    ∧ unitLen "hi there".data < 20
    ∧ splitText "hi there".data 10 0 20
        = some [if cjkDominant "hi there".data then "hi there".data
            else joinSpace (fields "hi there".data)] :=
  ⟨by decide, by decide, by decide, by decide, by decide,
   split_short_text_single_chunk "hi there".data 10 0 20
     (by decide) (by decide) (by decide) (by decide) (by decide)⟩

/-- Claim C4, counterexample to the claim as stated: the word-branch text
`a  b` (two spaces) has unit length 2, shorter than `chunkSize = 10`, and
yields exactly one chunk — but that chunk is `a b`, the words rejoined with
a single space, not the whole input text. -/
theorem whole_text_chunk_refuted :
    unitLen "a  b".data = 2
    ∧ splitText "a  b".data 10 0 20 = some ["a b".data]
    ∧ "a b".data ≠ "a  b".data :=
  ⟨by decide, by decide, by decide⟩

end Notex
